import Mathlib

/-!
Verification development for the kepify tool (cmd/kepify/main.go).

The tool walks a directory tree for KEP documents, parses each into a
proposal record, and writes a single JSON object mapping
hex(md5(OwningSIG ++ ":" ++ Title)) to the record's fields.

The embedding below follows main.go.  The KEP parser itself lives in
pkg/kepval/keps (not part of this tree); its result type `Proposal` is
modelled from the fields main.go reads plus the spec's Record contract,
and the parse step is an abstract function argument wherever it matters.
-/

/-- One parsed KEP document.  Fields are the ones cmd/kepify/main.go reads
from keps.Proposal; `Error` models the parser's error-as-value field
(`kep.Error`, an optional error whose message is a string).
The parser (pkg/kepval/keps, not under src/) is modelled from the spec:
sequence fields with zero items are empty sequences, and a successful
parse has `Error = none`. -/
structure Proposal where
  Title : String
  OwningSIG : String
  ParticipatingSIGs : List String
  Reviewers : List String
  Authors : List String
  Editor : String
  CreationDate : String
  LastUpdated : String
  Status : String
  SeeAlso : List String
  Replaces : List String
  SupersededBy : List String
  Contents : String
  Error : Option String
deriving DecidableEq

/-- Model of `strings.HasSuffix` from the Go standard library, on the char level. -/
def strHasSuffix (s suff : String) : Bool :=
  List.isSuffixOf suff.data s.data

/-- Function `ignore` from main.go: a file is skipped when its name does not end in
the two characters "md", or is one of seven fixed names. -/
def ignore (name : String) : Bool :=
  if !(strHasSuffix name "md") then true
  else if name == "0023-documentation-for-images.md"
      || name == "0004-cloud-provider-template.md"
      || name == "0001a-meta-kep-implementation.md"
      || name == "0001-kubernetes-enhancement-proposal-process.md"
      || name == "YYYYMMDD-kep-template.md"
      || name == "README.md"
      || name == "kep-faq.md" then true
  else false

/-- One entry seen by `filepath.Walk`, in walk order: the full path, the
base name (`info.Name()`), and whether it is a directory. -/
structure WalkEntry where
  path : String
  name : String
  isDir : Bool
deriving DecidableEq

/-- Function `findMarkdownFiles` from main.go: the walk callback skips directories
and ignored names and appends every other path, in walk order. -/
def findMarkdownFiles (entries : List WalkEntry) : List String :=
  entries.foldl
    (fun files e =>
      if e.isDir then files
      else if ignore e.name then files
      else files ++ [e.path])
    []

/-! ### MD5 (crypto/md5 from the Go standard library), over byte lists -/

/-- Low 32 bits. -/
def mask32 : Nat := 4294967295

/-- Left rotation of a 32-bit value (inputs below 2^32). -/
def rotl32 (x n : Nat) : Nat :=
  ((x <<< n) ||| (x >>> (32 - n))) % 4294967296

/-- The 64 MD5 round constants (RFC 1321). -/
def md5K : List Nat :=
  [0xd76aa478, 0xe8c7b756, 0x242070db, 0xc1bdceee, 0xf57c0faf, 0x4787c62a, 0xa8304613, 0xfd469501,
   0x698098d8, 0x8b44f7af, 0xffff5bb1, 0x895cd7be, 0x6b901122, 0xfd987193, 0xa679438e, 0x49b40821,
   0xf61e2562, 0xc040b340, 0x265e5a51, 0xe9b6c7aa, 0xd62f105d, 0x02441453, 0xd8a1e681, 0xe7d3fbc8,
   0x21e1cde6, 0xc33707d6, 0xf4d50d87, 0x455a14ed, 0xa9e3e905, 0xfcefa3f8, 0x676f02d9, 0x8d2a4c8a,
   0xfffa3942, 0x8771f681, 0x6d9d6122, 0xfde5380c, 0xa4beea44, 0x4bdecfa9, 0xf6bb4b60, 0xbebfbc70,
   0x289b7ec6, 0xeaa127fa, 0xd4ef3085, 0x04881d05, 0xd9d4d039, 0xe6db99e5, 0x1fa27cf8, 0xc4ac5665,
   0xf4292244, 0x432aff97, 0xab9423a7, 0xfc93a039, 0x655b59c3, 0x8f0ccc92, 0xffeff47d, 0x85845dd1,
   0x6fa87e4f, 0xfe2ce6e0, 0xa3014314, 0x4e0811a1, 0xf7537e82, 0xbd3af235, 0x2ad7d2bb, 0xeb86d391]

/-- The 64 MD5 per-round shift amounts (RFC 1321). -/
def md5S : List Nat :=
  [7, 12, 17, 22, 7, 12, 17, 22, 7, 12, 17, 22, 7, 12, 17, 22,
   5, 9, 14, 20, 5, 9, 14, 20, 5, 9, 14, 20, 5, 9, 14, 20,
   4, 11, 16, 23, 4, 11, 16, 23, 4, 11, 16, 23, 4, 11, 16, 23,
   6, 10, 15, 21, 6, 10, 15, 21, 6, 10, 15, 21, 6, 10, 15, 21]

/-- Group a byte list into little-endian 32-bit words. -/
def bytesToWordsLE : List Nat → List Nat
  | b0 :: b1 :: b2 :: b3 :: rest =>
      (b0 + 256 * (b1 + 256 * (b2 + 256 * b3))) :: bytesToWordsLE rest
  | _ => []

/-- One MD5 round on the running state. -/
def md5Round (M : List Nat) (st : Nat × Nat × Nat × Nat) (i : Nat) :
    Nat × Nat × Nat × Nat :=
  let a := st.1
  let b := st.2.1
  let c := st.2.2.1
  let d := st.2.2.2
  let fg : Nat × Nat :=
    if i < 16 then ((b &&& c) ||| ((b ^^^ mask32) &&& d), i)
    else if i < 32 then ((d &&& b) ||| ((d ^^^ mask32) &&& c), (5 * i + 1) % 16)
    else if i < 48 then (b ^^^ c ^^^ d, (3 * i + 5) % 16)
    else (c ^^^ (b ||| (d ^^^ mask32)), (7 * i) % 16)
  let tmp := (a + fg.1 + md5K.getD i 0 + M.getD fg.2 0) % 4294967296
  (d, (b + rotl32 tmp (md5S.getD i 0)) % 4294967296, b, c)

/-- Process one 64-byte block. -/
def md5ProcessChunk (st : Nat × Nat × Nat × Nat) (block : List Nat) :
    Nat × Nat × Nat × Nat :=
  let M := bytesToWordsLE block
  let r := (List.range 64).foldl (md5Round M) st
  ((st.1 + r.1) % 4294967296,
   (st.2.1 + r.2.1) % 4294967296,
   (st.2.2.1 + r.2.2.1) % 4294967296,
   (st.2.2.2 + r.2.2.2) % 4294967296)

/-- Little-endian byte expansion of a value, `k` bytes. -/
def lenBytesLE : Nat → Nat → List Nat
  | 0, _ => []
  | k + 1, v => v % 256 :: lenBytesLE k (v / 256)

/-- MD5 padding: 0x80, zeros to 56 mod 64, then the bit length as eight
little-endian bytes. -/
def md5Pad (msg : List Nat) : List Nat :=
  msg ++ 128 :: List.replicate ((119 - msg.length % 64) % 64) 0
      ++ lenBytesLE 8 ((msg.length * 8) % 18446744073709551616)

/-- Consume the padded message 64 bytes at a time. -/
def md5Absorb : Nat × Nat × Nat × Nat → List Nat → List Nat → Nat × Nat × Nat × Nat
  | st, _, [] => st
  | st, buf, b :: rest =>
      if buf.length == 63 then md5Absorb (md5ProcessChunk st (buf ++ [b])) [] rest
      else md5Absorb st (buf ++ [b]) rest

/-- Four little-endian bytes of a 32-bit word. -/
def wordLE4 (w : Nat) : List Nat :=
  [w % 256, w / 256 % 256, w / 65536 % 256, w / 16777216 % 256]

/-- Model of `md5.Sum`: the 16 digest bytes of a byte-list message. -/
def md5Bytes (msg : List Nat) : List Nat :=
  let st := md5Absorb (0x67452301, 0xefcdab89, 0x98badcfe, 0x10325476) [] (md5Pad msg)
  wordLE4 st.1 ++ wordLE4 st.2.1 ++ wordLE4 st.2.2.1 ++ wordLE4 st.2.2.2

/-- Lowercase hexadecimal digits. -/
def hexDigits : List Char :=
  ("0123456789abcdef").data

/-- The lowercase hex digit of `n % 16`. -/
def hexDigitChar (n : Nat) : Char :=
  hexDigits.getD (n % 16) '0'

/-- Lowercase hex encoding of a byte list (Go's `%x` on a byte array). -/
def hexEncode (bytes : List Nat) : List Char :=
  bytes.flatMap (fun b => [hexDigitChar (b / 16), hexDigitChar (b % 16)])

/-- UTF-8 encoding of one character. -/
def utf8Char (c : Char) : List Nat :=
  let u := c.toNat
  if u < 128 then [u]
  else if u < 2048 then [192 + u / 64, 128 + u % 64]
  else if u < 65536 then [224 + u / 4096, 128 + u / 64 % 64, 128 + u % 64]
  else [240 + u / 262144, 128 + u / 4096 % 64, 128 + u / 64 % 64, 128 + u % 64]

/-- UTF-8 bytes of a character list. -/
def utf8Bytes (cs : List Char) : List Nat :=
  cs.flatMap utf8Char

/-- Function `hash` from main.go: `fmt.Sprintf("%x", md5.Sum([]byte(s)))`.
(Named `hashHex` here because `hash` collides with `Hashable.hash`.) -/
def hashHex (s : String) : String :=
  String.mk (hexEncode (md5Bytes (utf8Bytes s.data)))

set_option maxRecDepth 40000 in
/-- MD5 test vectors (RFC 1321 appendix). -/
theorem md5_test_vectors :
    hashHex "" = "d41d8cd98f00b204e9800998ecf8427e" ∧
    hashHex "abc" = "900150983cd24fb0d6963f7d28e17f72" := by
  constructor <;> rfl

/-! ### Go encoding/json string encoding (used by `marshal` and for the body) -/

/-- Go `encoding/json` escaping of one character (HTML escaping on, as in
`json.Marshal`): quote, backslash, newline, carriage return and tab get
two-character escapes; `<`, `>`, `&` and other control characters become
`\u00XX`; U+2028/U+2029 become six-character unicode escapes; everything else is kept. -/
def jsonEscapeChar (c : Char) : List Char :=
  if c = '"' then ['\\', '"']
  else if c = '\\' then ['\\', '\\']
  else if c = '\n' then ['\\', 'n']
  else if c = '\r' then ['\\', 'r']
  else if c = '\t' then ['\\', 't']
  else if c = '<' ∨ c = '>' ∨ c = '&' ∨ c.toNat < 32 then
    ['\\', 'u', '0', '0', hexDigitChar (c.toNat / 16), hexDigitChar (c.toNat % 16)]
  else if c.toNat = 8232 then ['\\', 'u', '2', '0', '2', '8']
  else if c.toNat = 8233 then ['\\', 'u', '2', '0', '2', '9']
  else [c]

/-- Model of `json.Marshal` of a Go string: a double-quoted, escaped JSON string. -/
def jsonQuote (s : String) : String :=
  String.mk ('"' :: s.data.flatMap jsonEscapeChar ++ ['"'])

/-- Function `marshal` from main.go: `json.Marshal` of a `[]string`, as a string.
`["a","b"]` with no spaces; the empty slice gives `[]`.  (A nil Go slice
would give `null`; the spec's parser contract produces empty sequences,
which are non-nil, so lists model the slices.) -/
def marshal (array : List String) : String :=
  "[" ++ marshalBody array ++ "]"
where
  marshalBody : List String → String
    | [] => ""
    | [s] => jsonQuote s
    | s :: rest => jsonQuote s ++ "," ++ marshalBody rest

/-! ### printJSONOutput from main.go -/

/-- The body of one serialized record: everything `printJSONOutput` writes
for one proposal, from the key line through the `markdown` line (the
closing `\t\x7d` with its comma-or-not is appended by `renderMembers`).
Scalar string fields are interpolated verbatim (`%s` inside quotes);
sequence fields go through `marshal`; the body goes through
`json.Marshal`. -/
def memberCore (kep : Proposal) : String :=
  "\t\"" ++ hashHex (kep.OwningSIG ++ ":" ++ kep.Title) ++ "\": \x7b\n" ++
  "\t\t\"" ++ "title" ++ "\": \"" ++ kep.Title ++ "\",\n" ++
  "\t\t\"" ++ "owning-sig" ++ "\": \"" ++ kep.OwningSIG ++ "\",\n" ++
  "\t\t\"" ++ "participating-sigs" ++ "\": " ++ marshal kep.ParticipatingSIGs ++ ",\n" ++
  "\t\t\"" ++ "reviewers" ++ "\": " ++ marshal kep.Reviewers ++ ",\n" ++
  "\t\t\"" ++ "authors" ++ "\": " ++ marshal kep.Authors ++ ",\n" ++
  "\t\t\"" ++ "editor" ++ "\": \"" ++ kep.Editor ++ "\",\n" ++
  "\t\t\"" ++ "creation-date" ++ "\": \"" ++ kep.CreationDate ++ "\",\n" ++
  "\t\t\"" ++ "last-updated" ++ "\": \"" ++ kep.LastUpdated ++ "\",\n" ++
  "\t\t\"" ++ "status" ++ "\": \"" ++ kep.Status ++ "\",\n" ++
  "\t\t\"" ++ "see-also" ++ "\": " ++ marshal kep.SeeAlso ++ ",\n" ++
  "\t\t\"" ++ "replaces" ++ "\": " ++ marshal kep.Replaces ++ ",\n" ++
  "\t\t\"" ++ "superseded-by" ++ "\": " ++ marshal kep.SupersededBy ++ ",\n" ++
  "\t\t\"" ++ "markdown" ++ "\": " ++ jsonQuote kep.Contents ++ "\n"

/-- The loop body of `printJSONOutput`: every member but the last is closed
with `\t\x7d,`, the last with `\t\x7d` (the `i < total-1` test). -/
def renderMembers : List Proposal → String
  | [] => ""
  | [kep] => memberCore kep ++ "\t\x7d\n"
  | kep :: rest => memberCore kep ++ "\t\x7d,\n" ++ renderMembers rest

/-- The full file content written by `printJSONOutput`. -/
def printJSONOutput (proposals : List Proposal) : String :=
  "\x7b\n" ++ renderMembers proposals ++ "\x7d\n"

/-! ### parseFiles and the main pipeline -/

/-- Go `strconv.Quote`-style escaping of one character, as used by the
`%q` format verb (printable characters kept, common escapes named,
other control bytes as `\xXX`). -/
def goQuoteChar (c : Char) : List Char :=
  if c = '"' then ['\\', '"']
  else if c = '\\' then ['\\', '\\']
  else if c = '\n' then ['\\', 'n']
  else if c = '\r' then ['\\', 'r']
  else if c = '\t' then ['\\', 't']
  else if c = '\x07' then ['\\', 'a']
  else if c = '\x08' then ['\\', 'b']
  else if c = '\x0B' then ['\\', 'v']
  else if c = '\x0C' then ['\\', 'f']
  else if c.toNat < 32 then ['\\', 'x', hexDigitChar (c.toNat / 16), hexDigitChar (c.toNat % 16)]
  else [c]

/-- Go `%q` of a string. -/
def goQuote (s : String) : String :=
  String.mk ('"' :: s.data.flatMap goQuoteChar ++ ['"'])

/-- One input file as `parseFiles` sees it: its path and the proposal the
external parser (`keps.Parser.Parse`, not under src/) returns for it. -/
structure InputFile where
  name : String
  kep : Proposal
deriving DecidableEq

/-- Function `parseFiles` from main.go: parse each file in order; on the first
proposal whose `Error` is non-nil return
`fmt.Errorf("%v has an error: %q\n", filename, kep.Error.Error())` and stop;
otherwise append every proposal (`AddProposal`, modelled from the spec as
an ordered append) and return them all. -/
def parseFiles : List InputFile → Except String (List Proposal)
  | [] => .ok []
  | f :: fs =>
    match f.kep.Error with
    | some e => .error (f.name ++ " has an error: " ++ goQuote e ++ "\n")
    | none =>
      match parseFiles fs with
      | .error msg => .error msg
      | .ok ps => .ok (f.kep :: ps)

/-- Observable outcome of one run of `main` after flag handling: the exit
code, the output file content (`none` when no output file is written), and
the diagnostic line printed to stderr. -/
structure RunOutcome where
  exitCode : Nat
  output : Option String
  stderr : Option String
deriving DecidableEq

/-- The `main` pipeline from main.go, after the directory flags are
validated: find files (zero files → "did not find any KEPs", exit 1);
parse them (`parse` stands for the external `keps.Parser.Parse` applied to
a path's content; an error → `error parsing files: %q`, exit 1, no output);
otherwise write `printJSONOutput` and exit 0. -/
def runKepify (entries : List WalkEntry) (parse : String → Proposal) : RunOutcome :=
  let files := findMarkdownFiles entries
  if files.isEmpty then ⟨1, none, some "did not find any KEPs\n"⟩
  else
    match parseFiles (files.map (fun n => ⟨n, parse n⟩)) with
    | .error e => ⟨1, none, some ("error parsing files: " ++ goQuote e ++ "\n")⟩
    | .ok ps => ⟨0, some (printJSONOutput ps), none⟩

/-! ### A JSON syntax checker / reader (specification side)

Used only to state properties of the emitted text: validity of the output
and the decoded value it denotes.  It is a character-level pushdown
automaton over RFC 8259 JSON, written with structural recursion so that it
evaluates on concrete inputs.  Object member order and duplicate keys are
preserved; numbers are kept as raw text. -/

/-- A JSON value; members keep order and duplicates. -/
inductive JVal where
  | jnull : JVal
  | jbool : Bool → JVal
  | jnum : String → JVal
  | jstr : String → JVal
  | jarr : List JVal → JVal
  | jobj : List (String × JVal) → JVal

/-- An open array or object context; accumulators are reversed. -/
inductive PFrame where
  | farr : List JVal → PFrame
  | fobj : List (String × JVal) → Option String → PFrame

/-- Phases of the JSON number grammar. -/
inductive NumPhase where
  | mins | zero | intg | dot | frac | expo | esign | edig
deriving DecidableEq

/-- Parser mode between two characters. -/
inductive PMode where
  | valueStart : PMode
  | arrayStart : PMode
  | objStart : PMode
  | keyStart : PMode
  | inStr : Bool → List Char → PMode
  | strEsc : Bool → List Char → PMode
  | strU : Bool → List Char → List Char → PMode
  | afterKey : String → PMode
  | afterValue : PMode
  | inLit : List Char → JVal → PMode
  | inNum : List Char → NumPhase → PMode
  | jdone : JVal → PMode

/-- Full parser state. -/
structure PState where
  stack : List PFrame
  mode : PMode

/-- JSON whitespace. -/
def isWs (c : Char) : Bool :=
  c = ' ' ∨ c = '\t' ∨ c = '\n' ∨ c = '\r'

/-- ASCII digit. -/
def isDigit (c : Char) : Bool :=
  47 < c.toNat ∧ c.toNat < 58

/-- Value of a hexadecimal digit. -/
def hexVal (c : Char) : Option Nat :=
  if 47 < c.toNat ∧ c.toNat < 58 then some (c.toNat - 48)
  else if 96 < c.toNat ∧ c.toNat < 103 then some (c.toNat - 87)
  else if 64 < c.toNat ∧ c.toNat < 71 then some (c.toNat - 55)
  else none

/-- The character of a `\uXXXX` escape (`'\x00'` if not a scalar value). -/
def decodeU (hs : List Char) : Char :=
  Char.ofNat (hs.foldl (fun acc c => acc * 16 + (hexVal c).getD 0) 0)

/-- Attach a completed value to the enclosing context. -/
def emit (v : JVal) : List PFrame → Option PState
  | [] => some ⟨[], .jdone v⟩
  | .farr acc :: rest => some ⟨.farr (v :: acc) :: rest, .afterValue⟩
  | .fobj acc (some k) :: rest => some ⟨.fobj ((k, v) :: acc) none :: rest, .afterValue⟩
  | .fobj _ none :: _ => none

/-- Dispatch on the first character of a value. -/
def startValue (stk : List PFrame) (c : Char) : Option PState :=
  if c = '"' then some ⟨stk, .inStr false []⟩
  else if c = '\x7b' then some ⟨.fobj [] none :: stk, .objStart⟩
  else if c = '[' then some ⟨.farr [] :: stk, .arrayStart⟩
  else if c = 't' then some ⟨stk, .inLit ['r', 'u', 'e'] (.jbool true)⟩
  else if c = 'f' then some ⟨stk, .inLit ['a', 'l', 's', 'e'] (.jbool false)⟩
  else if c = 'n' then some ⟨stk, .inLit ['u', 'l', 'l'] .jnull⟩
  else if c = '-' then some ⟨stk, .inNum [c] .mins⟩
  else if c = '0' then some ⟨stk, .inNum [c] .zero⟩
  else if isDigit c then some ⟨stk, .inNum [c] .intg⟩
  else none

/-- A character arriving after a completed value. -/
def afterValueStep (stk : List PFrame) (c : Char) : Option PState :=
  if isWs c then some ⟨stk, .afterValue⟩
  else
    match stk with
    | .farr acc :: rest =>
      if c = ',' then some ⟨.farr acc :: rest, .valueStart⟩
      else if c = ']' then emit (.jarr acc.reverse) rest
      else none
    | .fobj acc none :: rest =>
      if c = ',' then some ⟨.fobj acc none :: rest, .keyStart⟩
      else if c = '\x7d' then emit (.jobj acc.reverse) rest
      else none
    | _ => none

/-- Continuation of a number, if `c` extends it. -/
def numCont : NumPhase → Char → Option NumPhase
  | .mins, c => if c = '0' then some .zero else if isDigit c then some .intg else none
  | .zero, c => if c = '.' then some .dot else if c = 'e' ∨ c = 'E' then some .expo else none
  | .intg, c =>
    if isDigit c then some .intg
    else if c = '.' then some .dot
    else if c = 'e' ∨ c = 'E' then some .expo else none
  | .dot, c => if isDigit c then some .frac else none
  | .frac, c =>
    if isDigit c then some .frac
    else if c = 'e' ∨ c = 'E' then some .expo else none
  | .expo, c =>
    if c = '+' ∨ c = '-' then some .esign
    else if isDigit c then some .edig else none
  | .esign, c => if isDigit c then some .edig else none
  | .edig, c => if isDigit c then some .edig else none

/-- May a number end in this phase? -/
def numCanEnd : NumPhase → Bool
  | .zero => true
  | .intg => true
  | .frac => true
  | .edig => true
  | _ => false

/-- One character of input. -/
def step (st : PState) (c : Char) : Option PState :=
  match st.mode with
  | .valueStart => if isWs c then some st else startValue st.stack c
  | .arrayStart =>
    if isWs c then some st
    else if c = ']' then
      match st.stack with
      | .farr acc :: rest => emit (.jarr acc.reverse) rest
      | _ => none
    else startValue st.stack c
  | .objStart =>
    if isWs c then some st
    else if c = '"' then some ⟨st.stack, .inStr true []⟩
    else if c = '\x7d' then
      match st.stack with
      | .fobj acc none :: rest => emit (.jobj acc.reverse) rest
      | _ => none
    else none
  | .keyStart =>
    if isWs c then some st
    else if c = '"' then some ⟨st.stack, .inStr true []⟩
    else none
  | .inStr k acc =>
    if c = '"' then
      if k then some ⟨st.stack, .afterKey (String.mk acc.reverse)⟩
      else emit (.jstr (String.mk acc.reverse)) st.stack
    else if c = '\\' then some ⟨st.stack, .strEsc k acc⟩
    else if c.toNat < 32 then none
    else some ⟨st.stack, .inStr k (c :: acc)⟩
  | .strEsc k acc =>
    if c = '"' then some ⟨st.stack, .inStr k ('"' :: acc)⟩
    else if c = '\\' then some ⟨st.stack, .inStr k ('\\' :: acc)⟩
    else if c = '/' then some ⟨st.stack, .inStr k ('/' :: acc)⟩
    else if c = 'b' then some ⟨st.stack, .inStr k ('\x08' :: acc)⟩
    else if c = 'f' then some ⟨st.stack, .inStr k ('\x0C' :: acc)⟩
    else if c = 'n' then some ⟨st.stack, .inStr k ('\n' :: acc)⟩
    else if c = 'r' then some ⟨st.stack, .inStr k ('\r' :: acc)⟩
    else if c = 't' then some ⟨st.stack, .inStr k ('\t' :: acc)⟩
    else if c = 'u' then some ⟨st.stack, .strU k acc []⟩
    else none
  | .strU k acc hs =>
    match hexVal c with
    | none => none
    | some _ =>
      if hs.length = 3 then some ⟨st.stack, .inStr k (decodeU (hs ++ [c]) :: acc)⟩
      else some ⟨st.stack, .strU k acc (hs ++ [c])⟩
  | .afterKey key =>
    if isWs c then some st
    else if c = ':' then
      match st.stack with
      | .fobj acc none :: rest => some ⟨.fobj acc (some key) :: rest, .valueStart⟩
      | _ => none
    else none
  | .afterValue => afterValueStep st.stack c
  | .inLit ls v =>
    match ls with
    | [] => none
    | l :: ls2 =>
      if c = l then
        if ls2.isEmpty then emit v st.stack else some ⟨st.stack, .inLit ls2 v⟩
      else none
  | .inNum acc ph =>
    match numCont ph c with
    | some ph2 => some ⟨st.stack, .inNum (c :: acc) ph2⟩
    | none =>
      if numCanEnd ph then
        match emit (.jnum (String.mk acc.reverse)) st.stack with
        | some st2 =>
          match st2.mode with
          | .afterValue => afterValueStep st2.stack c
          | .jdone v => if isWs c then some ⟨st2.stack, .jdone v⟩ else none
          | _ => none
        | none => none
      else none
  | .jdone _ => if isWs c then some st else none

/-- Run the automaton over a character list. -/
def runP (st : PState) : List Char → Option PState
  | [] => some st
  | c :: cs =>
    match step st c with
    | none => none
    | some st2 => runP st2 cs

/-- Parse a whole string as one JSON value. -/
def parseJson (s : String) : Option JVal :=
  match runP ⟨[], .valueStart⟩ s.data with
  | some ⟨[], .jdone v⟩ => some v
  | some ⟨[], .inNum acc ph⟩ =>
    if numCanEnd ph then some (.jnum (String.mk acc.reverse)) else none
  | _ => none

/-! ### Specification-side notions used in the theorem statements -/

/-- A character that needs no JSON string escaping: not a quote, not a
backslash, not a control character. -/
def safeChar (c : Char) : Bool :=
  c ≠ '"' ∧ c ≠ '\\' ∧ 31 < c.toNat

/-- All characters of a string are escape-free. -/
def safeStr (s : String) : Bool :=
  s.data.all safeChar

/-- The six scalar string fields (the ones `printJSONOutput` interpolates
verbatim) are escape-free. -/
def SafeScalars (p : Proposal) : Bool :=
  safeStr p.Title && safeStr p.OwningSIG && safeStr p.Editor &&
  safeStr p.CreationDate && safeStr p.LastUpdated && safeStr p.Status

/-- The identifier that keys a record in the output object. -/
def hashKey (p : Proposal) : String :=
  hashHex (p.OwningSIG ++ ":" ++ p.Title)

/-- The JSON value a record's member denotes in the output. -/
def recordJVal (p : Proposal) : JVal :=
  .jobj
    [("title", .jstr p.Title),
     ("owning-sig", .jstr p.OwningSIG),
     ("participating-sigs", .jarr (p.ParticipatingSIGs.map .jstr)),
     ("reviewers", .jarr (p.Reviewers.map .jstr)),
     ("authors", .jarr (p.Authors.map .jstr)),
     ("editor", .jstr p.Editor),
     ("creation-date", .jstr p.CreationDate),
     ("last-updated", .jstr p.LastUpdated),
     ("status", .jstr p.Status),
     ("see-also", .jarr (p.SeeAlso.map .jstr)),
     ("replaces", .jarr (p.Replaces.map .jstr)),
     ("superseded-by", .jarr (p.SupersededBy.map .jstr)),
     ("markdown", .jstr p.Contents)]

/-- Join strings with a separator (no leading or trailing separator). -/
def joinSep (sep : String) : List String → String
  | [] => ""
  | [x] => x
  | x :: xs => x ++ sep ++ joinSep sep xs

/-! ### Lemmas about the automaton -/

theorem runP_append (st : PState) (xs ys : List Char) :
    runP st (xs ++ ys) = (runP st xs).bind (fun st2 => runP st2 ys) := by
  induction xs generalizing st with
  | nil => simp [runP]
  | cons x xs ih =>
    simp only [List.cons_append, runP]
    cases step st x with
    | none => simp
    | some st2 => simpa using ih st2

theorem safeChar_spec {c : Char} (h : safeChar c = true) :
    ¬(c = '"') ∧ ¬(c = '\\') ∧ ¬(c.toNat < 32) := by
  simp only [safeChar, decide_eq_true_eq] at h
  exact ⟨h.1, h.2.1, by omega⟩

/-- Safe characters pass through an open string unchanged. -/
theorem runP_safe_str (cs : List Char) (h : cs.all safeChar = true)
    (stk : List PFrame) (k : Bool) (acc : List Char) :
    runP ⟨stk, .inStr k acc⟩ cs = some ⟨stk, .inStr k (cs.reverse ++ acc)⟩ := by
  induction cs generalizing acc with
  | nil => simp [runP]
  | cons c cs ih =>
    simp only [List.all_cons, Bool.and_eq_true] at h
    obtain ⟨hq, hb, hc⟩ := safeChar_spec h.1
    simp only [runP, step, if_neg hq, if_neg hb, if_neg hc]
    rw [ih h.2]
    simp

theorem hexDigitChar_lt16 (n : Nat) (h : n < 16) :
    hexVal (hexDigitChar n) = some n := by
  unfold hexDigitChar
  rw [Nat.mod_eq_of_lt h]
  interval_cases n <;> decide

theorem safeChar_hexDigitChar (n : Nat) : safeChar (hexDigitChar n) = true := by
  unfold hexDigitChar
  have h : n % 16 < 16 := Nat.mod_lt _ (by norm_num)
  set m := n % 16 with hm
  interval_cases m <;> decide

/-- Running the six characters `\u00XY` inside a string pushes back the
character they encode. -/
theorem runP_u00 (c : Char) (hc : c.toNat < 64) (stk : List PFrame)
    (k : Bool) (acc : List Char) :
    runP ⟨stk, .inStr k acc⟩
      ['\\', 'u', '0', '0', hexDigitChar (c.toNat / 16), hexDigitChar (c.toNat % 16)]
      = some ⟨stk, .inStr k (c :: acc)⟩ := by
  have hd1 : hexVal (hexDigitChar (c.toNat / 16)) = some (c.toNat / 16) :=
    hexDigitChar_lt16 _ (by omega)
  have hd2 : hexVal (hexDigitChar (c.toNat % 16)) = some (c.toNat % 16) :=
    hexDigitChar_lt16 _ (Nat.mod_lt _ (by norm_num))
  have s1 : step ⟨stk, .inStr k acc⟩ '\\' = some ⟨stk, .strEsc k acc⟩ := rfl
  have s2 : step ⟨stk, .strEsc k acc⟩ 'u' = some ⟨stk, .strU k acc []⟩ := rfl
  have s3 : step ⟨stk, .strU k acc []⟩ '0' = some ⟨stk, .strU k acc ['0']⟩ := rfl
  have s4 : step ⟨stk, .strU k acc ['0']⟩ '0' = some ⟨stk, .strU k acc ['0', '0']⟩ := rfl
  have s5 : step ⟨stk, .strU k acc ['0', '0']⟩ (hexDigitChar (c.toNat / 16))
      = some ⟨stk, .strU k acc ['0', '0', hexDigitChar (c.toNat / 16)]⟩ := by
    simp [step, hd1]
  have s6 : step ⟨stk, .strU k acc ['0', '0', hexDigitChar (c.toNat / 16)]⟩
      (hexDigitChar (c.toNat % 16))
      = some ⟨stk, .inStr k
          (decodeU ['0', '0', hexDigitChar (c.toNat / 16), hexDigitChar (c.toNat % 16)] :: acc)⟩ := by
    simp [step, hd2]
  have hv0 : hexVal '0' = some 0 := rfl
  have hdec : decodeU ['0', '0', hexDigitChar (c.toNat / 16), hexDigitChar (c.toNat % 16)] = c := by
    simp only [decodeU, List.foldl_cons, List.foldl_nil, hd1, hd2, hv0, Option.getD_some]
    have harith : (((0 : Nat) * 16 + 0) * 16 + c.toNat / 16) * 16 + c.toNat % 16 = c.toNat := by
      omega
    rw [harith, Char.ofNat_toNat]
  simp only [runP, s1, s2, s3, s4, s5, s6, hdec]

/-- Running the escape of one character inside a string pushes back that
character: the Go escaper and the JSON string reader agree. -/
theorem runP_jsonEscChar (c : Char) (stk : List PFrame) (k : Bool) (acc : List Char) :
    runP ⟨stk, .inStr k acc⟩ (jsonEscapeChar c) = some ⟨stk, .inStr k (c :: acc)⟩ := by
  by_cases h1 : c = '"'
  · subst h1; rfl
  by_cases h2 : c = '\\'
  · subst h2; rfl
  by_cases h3 : c = '\n'
  · subst h3; rfl
  by_cases h4 : c = '\r'
  · subst h4; rfl
  by_cases h5 : c = '\t'
  · subst h5; rfl
  by_cases h6 : c = '<' ∨ c = '>' ∨ c = '&' ∨ c.toNat < 32
  · have he : jsonEscapeChar c
        = ['\\', 'u', '0', '0', hexDigitChar (c.toNat / 16), hexDigitChar (c.toNat % 16)] := by
      simp only [jsonEscapeChar, if_neg h1, if_neg h2, if_neg h3, if_neg h4, if_neg h5, if_pos h6]
    have hc : c.toNat < 64 := by
      rcases h6 with h | h | h | h
      · subst h; decide
      · subst h; decide
      · subst h; decide
      · omega
    rw [he]
    exact runP_u00 c hc stk k acc
  by_cases h7 : c.toNat = 8232
  · have : c = Char.ofNat 8232 := by rw [← Char.ofNat_toNat c, h7]
    subst this; rfl
  by_cases h8 : c.toNat = 8233
  · have : c = Char.ofNat 8233 := by rw [← Char.ofNat_toNat c, h8]
    subst this; rfl
  · have he : jsonEscapeChar c = [c] := by
      simp only [jsonEscapeChar,
        if_neg h1, if_neg h2, if_neg h3, if_neg h4, if_neg h5, if_neg h6, if_neg h7, if_neg h8]
    have hlt : ¬(c.toNat < 32) := by
      intro hlt
      exact h6 (Or.inr (Or.inr (Or.inr hlt)))
    rw [he]
    simp only [runP, step, if_neg h1, if_neg h2, if_neg hlt]

/-- Running the whole escaped body of a string accumulates it reversed. -/
theorem runP_escBody (cs : List Char) (stk : List PFrame) (k : Bool) (acc : List Char) :
    runP ⟨stk, .inStr k acc⟩ (cs.flatMap jsonEscapeChar)
      = some ⟨stk, .inStr k (cs.reverse ++ acc)⟩ := by
  induction cs generalizing acc with
  | nil => simp [runP]
  | cons c cs ih =>
    rw [List.flatMap_cons, runP_append, runP_jsonEscChar]
    simp [ih]

theorem mk_data (s : String) : String.mk s.data = s := by
  cases s
  rfl

theorem runP_cons_of_step {st st2 : PState} {c : Char} (h : step st c = some st2)
    (cs : List Char) : runP st (c :: cs) = runP st2 cs := by
  simp [runP, h]

theorem runP_single (st : PState) (c : Char) : runP st [c] = step st c := by
  cases h : step st c <;> simp [runP, h]

/-- Consume an escaped string body plus its closing quote. -/
theorem runP_strBody (s : String) (stk : List PFrame) :
    runP ⟨stk, .inStr false []⟩ (s.data.flatMap jsonEscapeChar ++ ['"'])
      = emit (.jstr s) stk := by
  rw [runP_append, runP_escBody, Option.some_bind, runP_single]
  have hstep : step ⟨stk, .inStr false (s.data.reverse ++ [])⟩ '"'
      = emit (.jstr (String.mk (s.data.reverse ++ []).reverse)) stk := rfl
  rw [hstep]
  simp [mk_data]

/-- Consume a raw escape-free string body plus its closing quote. -/
theorem runP_rawBody (s : String) (hs : safeStr s = true) (stk : List PFrame) :
    runP ⟨stk, .inStr false []⟩ (s.data ++ ['"']) = emit (.jstr s) stk := by
  rw [runP_append, runP_safe_str s.data hs, Option.some_bind, runP_single]
  have hstep : step ⟨stk, .inStr false (s.data.reverse ++ [])⟩ '"'
      = emit (.jstr (String.mk (s.data.reverse ++ []).reverse)) stk := rfl
  rw [hstep]
  simp [mk_data]

/-- Consume a raw escape-free object key plus its closing quote. -/
theorem runP_keyBody (s : String) (hs : safeStr s = true) (stk : List PFrame) :
    runP ⟨stk, .inStr true []⟩ (s.data ++ ['"']) = some ⟨stk, .afterKey s⟩ := by
  rw [runP_append, runP_safe_str s.data hs, Option.some_bind, runP_single]
  have hstep : step ⟨stk, .inStr true (s.data.reverse ++ [])⟩ '"'
      = some ⟨stk, .afterKey (String.mk (s.data.reverse ++ []).reverse)⟩ := rfl
  rw [hstep]
  simp [mk_data]

/-- Consume the elements of a marshalled array plus the closing bracket. -/
theorem runP_marshalBody (l : List String) (hl : l ≠ []) (acc : List JVal)
    (σ : List PFrame) (m : PMode)
    (hm : m = PMode.valueStart ∨ m = PMode.arrayStart) :
    runP ⟨.farr acc :: σ, m⟩ ((marshal.marshalBody l).data ++ [']'])
      = emit (.jarr (acc.reverse ++ l.map .jstr)) σ := by
  induction l generalizing acc m with
  | nil => exact absurd rfl hl
  | cons s rest ih =>
    have s0 : step ⟨.farr acc :: σ, m⟩ '"' = some ⟨.farr acc :: σ, .inStr false []⟩ := by
      rcases hm with h | h <;> subst h <;> rfl
    have hemit : emit (JVal.jstr s) (PFrame.farr acc :: σ)
        = some ⟨.farr (JVal.jstr s :: acc) :: σ, .afterValue⟩ := rfl
    cases rest with
    | nil =>
      have hq : (marshal.marshalBody [s]).data
          = '"' :: (s.data.flatMap jsonEscapeChar ++ ['"']) := rfl
      rw [hq, List.cons_append, runP_cons_of_step s0, runP_append, runP_strBody,
        hemit, Option.some_bind, runP_single]
      have hstep : step ⟨.farr (JVal.jstr s :: acc) :: σ, .afterValue⟩ ']'
          = emit (.jarr ((JVal.jstr s :: acc).reverse)) σ := rfl
      rw [hstep]
      simp
    | cons r rs =>
      have hcd : (",").data = [','] := rfl
      have hsplit : (marshal.marshalBody (s :: r :: rs)).data
          = '"' :: ((s.data.flatMap jsonEscapeChar ++ ['"'])
              ++ (',' :: (marshal.marshalBody (r :: rs)).data)) := by
        show ((jsonQuote s ++ ",") ++ marshal.marshalBody (r :: rs)).data = _
        rw [String.data_append, String.data_append, hcd]
        show ('"' :: (s.data.flatMap jsonEscapeChar ++ ['"'])) ++ [','] ++ _ = _
        simp [List.append_assoc]
      rw [hsplit, List.cons_append, runP_cons_of_step s0, List.append_assoc,
        List.cons_append, runP_append, runP_strBody, hemit, Option.some_bind]
      have hcomma : step ⟨.farr (JVal.jstr s :: acc) :: σ, .afterValue⟩ ','
          = some ⟨.farr (JVal.jstr s :: acc) :: σ, .valueStart⟩ := rfl
      rw [runP_cons_of_step hcomma,
        ih (by simp) (JVal.jstr s :: acc) PMode.valueStart (Or.inl rfl)]
      simp

/-- Lemma: `marshal` always denotes the JSON array of its strings. -/
theorem runP_marshal (l : List String) (σ : List PFrame) :
    runP ⟨σ, .valueStart⟩ (marshal l).data = emit (.jarr (l.map .jstr)) σ := by
  cases l with
  | nil =>
    show runP ⟨σ, .valueStart⟩ ['[', ']'] = _
    have s0 : step ⟨σ, .valueStart⟩ '[' = some ⟨.farr [] :: σ, .arrayStart⟩ := rfl
    rw [runP_cons_of_step s0, runP_single]
    rfl
  | cons s rest =>
    have hd : (marshal (s :: rest)).data
        = '[' :: ((marshal.marshalBody (s :: rest)).data ++ [']']) := by
      show ("[" ++ marshal.marshalBody (s :: rest) ++ "]").data = _
      rw [String.data_append, String.data_append]
      rfl
    have s0 : step ⟨σ, .valueStart⟩ '[' = some ⟨.farr [] :: σ, .arrayStart⟩ := rfl
    rw [hd, runP_cons_of_step s0,
      runP_marshalBody (s :: rest) (by simp) [] σ PMode.arrayStart (Or.inr rfl)]
    simp

/-- Hex-encoded hashes contain only escape-free characters. -/
theorem safeStr_hashHex (s : String) : safeStr (hashHex s) = true := by
  show (hexEncode (md5Bytes (utf8Bytes s.data))).all safeChar = true
  generalize md5Bytes (utf8Bytes s.data) = bs
  induction bs with
  | nil => rfl
  | cons b bs ih =>
    simp only [hexEncode, List.flatMap_cons, List.all_append] at ih ⊢
    simp [safeChar_hexDigitChar, ih]

/-- Consume a raw escape-free object key, given as characters, plus its
closing quote. -/
theorem runP_keyBodyL (cs : List Char) (hs : cs.all safeChar = true)
    (stk : List PFrame) :
    runP ⟨stk, .inStr true []⟩ (cs ++ ['"']) = some ⟨stk, .afterKey (String.mk cs)⟩ := by
  rw [runP_append, runP_safe_str cs hs, Option.some_bind, runP_single]
  have hstep : step ⟨stk, .inStr true (cs.reverse ++ [])⟩ '"'
      = some ⟨stk, .afterKey (String.mk (cs.reverse ++ []).reverse)⟩ := rfl
  rw [hstep]
  simp

/-- Consume a member line up to and including the `": "` after its name. -/
theorem runP_linePre (nameCs : List Char) (hn : nameCs.all safeChar = true)
    (Acc : List (String × JVal)) (σ : List PFrame) (m : PMode)
    (hm : m = PMode.objStart ∨ m = PMode.keyStart) (rest : List Char) :
    runP ⟨.fobj Acc none :: σ, m⟩
      ('\t' :: '\t' :: '"' :: (nameCs ++ ('"' :: ':' :: ' ' :: rest)))
      = runP ⟨.fobj Acc (some (String.mk nameCs)) :: σ, .valueStart⟩ rest := by
  have s1 : step ⟨.fobj Acc none :: σ, m⟩ '\t' = some ⟨.fobj Acc none :: σ, m⟩ := by
    rcases hm with h | h <;> subst h <;> rfl
  have s2 : step ⟨.fobj Acc none :: σ, m⟩ '"'
      = some ⟨.fobj Acc none :: σ, .inStr true []⟩ := by
    rcases hm with h | h <;> subst h <;> rfl
  rw [runP_cons_of_step s1, runP_cons_of_step s1, runP_cons_of_step s2]
  have hsh : nameCs ++ ('"' :: ':' :: ' ' :: rest)
      = (nameCs ++ ['"']) ++ (':' :: ' ' :: rest) := by simp
  rw [hsh, runP_append, runP_keyBodyL nameCs hn, Option.some_bind]
  have s3 : step ⟨.fobj Acc none :: σ, .afterKey (String.mk nameCs)⟩ ':'
      = some ⟨.fobj Acc (some (String.mk nameCs)) :: σ, .valueStart⟩ := rfl
  have s4 : step ⟨.fobj Acc (some (String.mk nameCs)) :: σ, .valueStart⟩ ' '
      = some ⟨.fobj Acc (some (String.mk nameCs)) :: σ, .valueStart⟩ := rfl
  rw [runP_cons_of_step s3, runP_cons_of_step s4]

/-- Consume a verbatim scalar value, its closing quote, the comma and the
newline. -/
theorem runP_scalarVal (v : String) (hv : safeStr v = true) (nm : String)
    (Acc : List (String × JVal)) (σ : List PFrame) (rest : List Char) :
    runP ⟨.fobj Acc (some nm) :: σ, .valueStart⟩
      ('"' :: (v.data ++ ('"' :: ',' :: '\n' :: rest)))
      = runP ⟨.fobj ((nm, .jstr v) :: Acc) none :: σ, .keyStart⟩ rest := by
  have s1 : step ⟨.fobj Acc (some nm) :: σ, .valueStart⟩ '"'
      = some ⟨.fobj Acc (some nm) :: σ, .inStr false []⟩ := rfl
  rw [runP_cons_of_step s1]
  have hsh : v.data ++ ('"' :: ',' :: '\n' :: rest)
      = (v.data ++ ['"']) ++ (',' :: '\n' :: rest) := by simp
  rw [hsh, runP_append, runP_rawBody v hv]
  have hemit : emit (JVal.jstr v) (PFrame.fobj Acc (some nm) :: σ)
      = some ⟨.fobj ((nm, .jstr v) :: Acc) none :: σ, .afterValue⟩ := rfl
  rw [hemit, Option.some_bind]
  have s2 : step ⟨.fobj ((nm, JVal.jstr v) :: Acc) none :: σ, .afterValue⟩ ','
      = some ⟨.fobj ((nm, JVal.jstr v) :: Acc) none :: σ, .keyStart⟩ := rfl
  have s3 : step ⟨.fobj ((nm, JVal.jstr v) :: Acc) none :: σ, .keyStart⟩ '\n'
      = some ⟨.fobj ((nm, JVal.jstr v) :: Acc) none :: σ, .keyStart⟩ := rfl
  rw [runP_cons_of_step s2, runP_cons_of_step s3]

/-- Consume a marshalled sequence value, the comma and the newline. -/
theorem runP_seqVal (l : List String) (nm : String)
    (Acc : List (String × JVal)) (σ : List PFrame) (rest : List Char) :
    runP ⟨.fobj Acc (some nm) :: σ, .valueStart⟩
      ((marshal l).data ++ (',' :: '\n' :: rest))
      = runP ⟨.fobj ((nm, .jarr (l.map .jstr)) :: Acc) none :: σ, .keyStart⟩ rest := by
  rw [runP_append, runP_marshal]
  have hemit : emit (JVal.jarr (l.map .jstr)) (PFrame.fobj Acc (some nm) :: σ)
      = some ⟨.fobj ((nm, .jarr (l.map .jstr)) :: Acc) none :: σ, .afterValue⟩ := rfl
  rw [hemit, Option.some_bind]
  have s2 : step ⟨.fobj ((nm, JVal.jarr (l.map .jstr)) :: Acc) none :: σ, .afterValue⟩ ','
      = some ⟨.fobj ((nm, JVal.jarr (l.map .jstr)) :: Acc) none :: σ, .keyStart⟩ := rfl
  have s3 : step ⟨.fobj ((nm, JVal.jarr (l.map .jstr)) :: Acc) none :: σ, .keyStart⟩ '\n'
      = some ⟨.fobj ((nm, JVal.jarr (l.map .jstr)) :: Acc) none :: σ, .keyStart⟩ := rfl
  rw [runP_cons_of_step s2, runP_cons_of_step s3]

/-- Consume the JSON-encoded markdown value and the final newline. -/
theorem runP_mdVal (v : String) (nm : String)
    (Acc : List (String × JVal)) (σ : List PFrame) (rest : List Char) :
    runP ⟨.fobj Acc (some nm) :: σ, .valueStart⟩
      ((jsonQuote v).data ++ ('\n' :: rest))
      = runP ⟨.fobj ((nm, .jstr v) :: Acc) none :: σ, .afterValue⟩ rest := by
  have hq : (jsonQuote v).data ++ ('\n' :: rest)
      = '"' :: ((v.data.flatMap jsonEscapeChar ++ ['"']) ++ ('\n' :: rest)) := by
    show ('"' :: (v.data.flatMap jsonEscapeChar ++ ['"'])) ++ ('\n' :: rest) = _
    simp
  have s1 : step ⟨.fobj Acc (some nm) :: σ, .valueStart⟩ '"'
      = some ⟨.fobj Acc (some nm) :: σ, .inStr false []⟩ := rfl
  rw [hq, runP_cons_of_step s1, runP_append, runP_strBody]
  have hemit : emit (JVal.jstr v) (PFrame.fobj Acc (some nm) :: σ)
      = some ⟨.fobj ((nm, .jstr v) :: Acc) none :: σ, .afterValue⟩ := rfl
  rw [hemit, Option.some_bind]
  have s2 : step ⟨.fobj ((nm, JVal.jstr v) :: Acc) none :: σ, .afterValue⟩ '\n'
      = some ⟨.fobj ((nm, JVal.jstr v) :: Acc) none :: σ, .afterValue⟩ := rfl
  rw [runP_cons_of_step s2]

/-- Consume a member's opening: tab, quoted identifier key, colon, space,
opening brace, newline. -/
theorem runP_memberOpen (key : String) (hk : safeStr key = true)
    (A : List (String × JVal)) (σ : List PFrame) (m : PMode)
    (hm : m = PMode.objStart ∨ m = PMode.keyStart) (rest : List Char) :
    runP ⟨.fobj A none :: σ, m⟩
      ('\t' :: '"' :: (key.data ++ ('"' :: ':' :: ' ' :: '\x7b' :: '\n' :: rest)))
      = runP ⟨.fobj [] none :: .fobj A (some key) :: σ, .objStart⟩ rest := by
  have s1 : step ⟨.fobj A none :: σ, m⟩ '\t' = some ⟨.fobj A none :: σ, m⟩ := by
    rcases hm with h | h <;> subst h <;> rfl
  have s2 : step ⟨.fobj A none :: σ, m⟩ '"'
      = some ⟨.fobj A none :: σ, .inStr true []⟩ := by
    rcases hm with h | h <;> subst h <;> rfl
  rw [runP_cons_of_step s1, runP_cons_of_step s2]
  have hsh : key.data ++ ('"' :: ':' :: ' ' :: '\x7b' :: '\n' :: rest)
      = (key.data ++ ['"']) ++ (':' :: ' ' :: '\x7b' :: '\n' :: rest) := by simp
  rw [hsh, runP_append, runP_keyBody key hk, Option.some_bind]
  have s3 : step ⟨.fobj A none :: σ, .afterKey key⟩ ':'
      = some ⟨.fobj A (some key) :: σ, .valueStart⟩ := rfl
  have s4 : step ⟨.fobj A (some key) :: σ, .valueStart⟩ ' '
      = some ⟨.fobj A (some key) :: σ, .valueStart⟩ := rfl
  have s5 : step ⟨.fobj A (some key) :: σ, .valueStart⟩ '\x7b'
      = some ⟨.fobj [] none :: .fobj A (some key) :: σ, .objStart⟩ := rfl
  have s6 : step ⟨.fobj [] none :: .fobj A (some key) :: σ, .objStart⟩ '\n'
      = some ⟨.fobj [] none :: .fobj A (some key) :: σ, .objStart⟩ := rfl
  rw [runP_cons_of_step s3, runP_cons_of_step s4, runP_cons_of_step s5,
    runP_cons_of_step s6]

/-- The member object's accumulated fields, most recent first (the order
the automaton pushes them). -/
def innerFields (p : Proposal) : List (String × JVal) :=
  [("markdown", .jstr p.Contents),
   ("superseded-by", .jarr (p.SupersededBy.map .jstr)),
   ("replaces", .jarr (p.Replaces.map .jstr)),
   ("see-also", .jarr (p.SeeAlso.map .jstr)),
   ("status", .jstr p.Status),
   ("last-updated", .jstr p.LastUpdated),
   ("creation-date", .jstr p.CreationDate),
   ("editor", .jstr p.Editor),
   ("authors", .jarr (p.Authors.map .jstr)),
   ("reviewers", .jarr (p.Reviewers.map .jstr)),
   ("participating-sigs", .jarr (p.ParticipatingSIGs.map .jstr)),
   ("owning-sig", .jstr p.OwningSIG),
   ("title", .jstr p.Title)]

theorem innerFields_reverse (p : Proposal) :
    JVal.jobj ((innerFields p).reverse) = recordJVal p := rfl

/-- Chunked form of `runP_memberOpen`, matching the shape produced by
distributing `String.data` over `memberCore`. -/
theorem runP_memberOpenC (key : String) (hk : safeStr key = true)
    (A : List (String × JVal)) (σ : List PFrame) (m : PMode)
    (hm : m = PMode.objStart ∨ m = PMode.keyStart) (rest : List Char) :
    runP ⟨.fobj A none :: σ, m⟩
      (['\t', '"'] ++ (key.data ++ (['"', ':', ' ', '\x7b', '\n'] ++ rest)))
      = runP ⟨.fobj [] none :: .fobj A (some key) :: σ, .objStart⟩ rest := by
  simp only [List.cons_append, List.nil_append]
  exact runP_memberOpen key hk A σ m hm rest

/-- One scalar member line, chunked. -/
theorem runP_scalarLineC (nameCs : List Char) (hn : nameCs.all safeChar = true)
    (v : String) (hv : safeStr v = true)
    (Acc : List (String × JVal)) (σ : List PFrame) (m : PMode)
    (hm : m = PMode.objStart ∨ m = PMode.keyStart) (rest : List Char) :
    runP ⟨.fobj Acc none :: σ, m⟩
      (['\t', '\t', '"'] ++ (nameCs ++ (['"', ':', ' ', '"']
        ++ (v.data ++ (['"', ',', '\n'] ++ rest)))))
      = runP ⟨.fobj ((String.mk nameCs, .jstr v) :: Acc) none :: σ, .keyStart⟩ rest := by
  simp only [List.cons_append, List.nil_append]
  rw [runP_linePre nameCs hn Acc σ m hm, runP_scalarVal v hv]

/-- One sequence member line, chunked. -/
theorem runP_seqLineC (nameCs : List Char) (hn : nameCs.all safeChar = true)
    (l : List String)
    (Acc : List (String × JVal)) (σ : List PFrame) (m : PMode)
    (hm : m = PMode.objStart ∨ m = PMode.keyStart) (rest : List Char) :
    runP ⟨.fobj Acc none :: σ, m⟩
      (['\t', '\t', '"'] ++ (nameCs ++ (['"', ':', ' ']
        ++ ((marshal l).data ++ ([',', '\n'] ++ rest)))))
      = runP ⟨.fobj ((String.mk nameCs, .jarr (l.map .jstr)) :: Acc) none :: σ,
          .keyStart⟩ rest := by
  simp only [List.cons_append, List.nil_append]
  rw [runP_linePre nameCs hn Acc σ m hm, runP_seqVal l]

/-- The markdown member line, chunked. -/
theorem runP_mdLineC (nameCs : List Char) (hn : nameCs.all safeChar = true)
    (v : String)
    (Acc : List (String × JVal)) (σ : List PFrame) (m : PMode)
    (hm : m = PMode.objStart ∨ m = PMode.keyStart) (rest : List Char) :
    runP ⟨.fobj Acc none :: σ, m⟩
      (['\t', '\t', '"'] ++ (nameCs ++ (['"', ':', ' ']
        ++ ((jsonQuote v).data ++ (['\n'] ++ rest)))))
      = runP ⟨.fobj ((String.mk nameCs, .jstr v) :: Acc) none :: σ, .afterValue⟩ rest := by
  simp only [List.cons_append, List.nil_append]
  rw [runP_linePre nameCs hn Acc σ m hm, runP_mdVal v]

set_option maxRecDepth 8000 in
/-- Consume one whole member body: afterwards the member's fields are
accumulated on a fresh object frame and the enclosing frame carries the
record's identifier as pending key. -/
theorem runP_memberCore (p : Proposal) (hp : SafeScalars p = true)
    (A : List (String × JVal)) (σ : List PFrame) (m : PMode)
    (hm : m = PMode.objStart ∨ m = PMode.keyStart) (rest : List Char) :
    runP ⟨.fobj A none :: σ, m⟩ ((memberCore p).data ++ rest)
      = runP ⟨.fobj (innerFields p) none :: .fobj A (some (hashKey p)) :: σ,
          .afterValue⟩ rest := by
  simp only [SafeScalars, Bool.and_eq_true] at hp
  obtain ⟨⟨⟨⟨⟨hT, hO⟩, hE⟩, hC⟩, hL⟩, hS⟩ := hp
  simp only [memberCore, String.data_append, List.append_assoc]
  rw [runP_memberOpenC (hashHex (p.OwningSIG ++ ":" ++ p.Title)) (safeStr_hashHex _)
    _ _ m hm]
  rw [runP_scalarLineC ['t', 'i', 't', 'l', 'e'] (by decide) p.Title hT
    _ _ _ (Or.inl rfl)]
  rw [runP_scalarLineC ['o', 'w', 'n', 'i', 'n', 'g', '-', 's', 'i', 'g'] (by decide)
    p.OwningSIG hO _ _ _ (Or.inr rfl)]
  rw [runP_seqLineC
    ['p', 'a', 'r', 't', 'i', 'c', 'i', 'p', 'a', 't', 'i', 'n', 'g', '-', 's', 'i', 'g', 's']
    (by decide) p.ParticipatingSIGs _ _ _ (Or.inr rfl)]
  rw [runP_seqLineC ['r', 'e', 'v', 'i', 'e', 'w', 'e', 'r', 's'] (by decide)
    p.Reviewers _ _ _ (Or.inr rfl)]
  rw [runP_seqLineC ['a', 'u', 't', 'h', 'o', 'r', 's'] (by decide)
    p.Authors _ _ _ (Or.inr rfl)]
  rw [runP_scalarLineC ['e', 'd', 'i', 't', 'o', 'r'] (by decide)
    p.Editor hE _ _ _ (Or.inr rfl)]
  rw [runP_scalarLineC ['c', 'r', 'e', 'a', 't', 'i', 'o', 'n', '-', 'd', 'a', 't', 'e']
    (by decide) p.CreationDate hC _ _ _ (Or.inr rfl)]
  rw [runP_scalarLineC ['l', 'a', 's', 't', '-', 'u', 'p', 'd', 'a', 't', 'e', 'd']
    (by decide) p.LastUpdated hL _ _ _ (Or.inr rfl)]
  rw [runP_scalarLineC ['s', 't', 'a', 't', 'u', 's'] (by decide)
    p.Status hS _ _ _ (Or.inr rfl)]
  rw [runP_seqLineC ['s', 'e', 'e', '-', 'a', 'l', 's', 'o'] (by decide)
    p.SeeAlso _ _ _ (Or.inr rfl)]
  rw [runP_seqLineC ['r', 'e', 'p', 'l', 'a', 'c', 'e', 's'] (by decide)
    p.Replaces _ _ _ (Or.inr rfl)]
  rw [runP_seqLineC ['s', 'u', 'p', 'e', 'r', 's', 'e', 'd', 'e', 'd', '-', 'b', 'y']
    (by decide) p.SupersededBy _ _ _ (Or.inr rfl)]
  rw [runP_mdLineC ['m', 'a', 'r', 'k', 'd', 'o', 'w', 'n'] (by decide)
    p.Contents _ _ _ (Or.inr rfl)]
  rfl

/-- Consume the whole member loop output plus the closing top-level brace
and newline: the automaton ends accepting the object whose members are the
accumulated pairs followed by one pair per proposal, in order. -/
theorem runP_members (ps : List Proposal) (hps : ∀ p ∈ ps, SafeScalars p = true)
    (hne : ps ≠ []) (A : List (String × JVal)) (m : PMode)
    (hm : m = PMode.objStart ∨ m = PMode.keyStart) :
    runP ⟨[.fobj A none], m⟩
      ((renderMembers ps).data ++ ('\x7d' :: '\n' :: []))
      = some ⟨[], .jdone (.jobj (A.reverse
          ++ ps.map (fun p => (hashKey p, recordJVal p))))⟩ := by
  induction ps generalizing A m with
  | nil => exact absurd rfl hne
  | cons p rest ih =>
    have hp : SafeScalars p = true := hps p (by simp)
    cases rest with
    | nil =>
      show runP ⟨[.fobj A none], m⟩
        ((memberCore p ++ "\t\x7d\n").data ++ ('\x7d' :: '\n' :: [])) = _
      rw [String.data_append]
      have hlit : ("\t\x7d\n").data = ['\t', '\x7d', '\n'] := rfl
      rw [hlit, List.append_assoc, List.cons_append, List.cons_append, List.cons_append,
        List.nil_append]
      rw [runP_memberCore p hp A [] m hm]
      have s1 : step ⟨[.fobj (innerFields p) none, .fobj A (some (hashKey p))],
          .afterValue⟩ '\t'
          = some ⟨[.fobj (innerFields p) none, .fobj A (some (hashKey p))],
          .afterValue⟩ := rfl
      have s2 : step ⟨[.fobj (innerFields p) none, .fobj A (some (hashKey p))],
          .afterValue⟩ '\x7d'
          = some ⟨[.fobj ((hashKey p, recordJVal p) :: A) none], .afterValue⟩ := rfl
      have s3 : step ⟨[.fobj ((hashKey p, recordJVal p) :: A) none], .afterValue⟩ '\n'
          = some ⟨[.fobj ((hashKey p, recordJVal p) :: A) none], .afterValue⟩ := rfl
      have s4 : step ⟨[.fobj ((hashKey p, recordJVal p) :: A) none], .afterValue⟩ '\x7d'
          = some ⟨[], .jdone (.jobj (((hashKey p, recordJVal p) :: A).reverse))⟩ := rfl
      have s5 : step ⟨[], .jdone (.jobj (((hashKey p, recordJVal p) :: A).reverse))⟩ '\n'
          = some ⟨[], .jdone (.jobj (((hashKey p, recordJVal p) :: A).reverse))⟩ := rfl
      rw [runP_cons_of_step s1, runP_cons_of_step s2, runP_cons_of_step s3,
        runP_cons_of_step s4, runP_cons_of_step s5]
      simp [runP]
    | cons q qs =>
      show runP ⟨[.fobj A none], m⟩
        ((memberCore p ++ "\t\x7d,\n" ++ renderMembers (q :: qs)).data
          ++ ('\x7d' :: '\n' :: [])) = _
      rw [String.data_append, String.data_append]
      have hlit : ("\t\x7d,\n").data = ['\t', '\x7d', ',', '\n'] := rfl
      rw [hlit, List.append_assoc, List.append_assoc, List.cons_append, List.cons_append,
        List.cons_append, List.cons_append, List.nil_append]
      rw [runP_memberCore p hp A [] m hm]
      have s1 : step ⟨[.fobj (innerFields p) none, .fobj A (some (hashKey p))],
          .afterValue⟩ '\t'
          = some ⟨[.fobj (innerFields p) none, .fobj A (some (hashKey p))],
          .afterValue⟩ := rfl
      have s2 : step ⟨[.fobj (innerFields p) none, .fobj A (some (hashKey p))],
          .afterValue⟩ '\x7d'
          = some ⟨[.fobj ((hashKey p, recordJVal p) :: A) none], .afterValue⟩ := rfl
      have s3 : step ⟨[.fobj ((hashKey p, recordJVal p) :: A) none], .afterValue⟩ ','
          = some ⟨[.fobj ((hashKey p, recordJVal p) :: A) none], .keyStart⟩ := rfl
      have s4 : step ⟨[.fobj ((hashKey p, recordJVal p) :: A) none], .keyStart⟩ '\n'
          = some ⟨[.fobj ((hashKey p, recordJVal p) :: A) none], .keyStart⟩ := rfl
      rw [runP_cons_of_step s1, runP_cons_of_step s2, runP_cons_of_step s3,
        runP_cons_of_step s4]
      rw [ih (fun r hr => hps r (by simp [hr])) (by simp)
        ((hashKey p, recordJVal p) :: A) PMode.keyStart (Or.inr rfl)]
      simp

/-- The master round trip: on escape-free scalar fields, the emitted file
parses as a JSON object with one member per proposal, in order, keyed by
the record identifier and valued by the record's fields. -/
theorem parseJson_printJSONOutput (ps : List Proposal) (hne : ps ≠ [])
    (hps : ∀ p ∈ ps, SafeScalars p = true) :
    parseJson (printJSONOutput ps)
      = some (.jobj (ps.map (fun p => (hashKey p, recordJVal p)))) := by
  unfold parseJson
  have hd : (printJSONOutput ps).data
      = '\x7b' :: '\n' :: ((renderMembers ps).data ++ ('\x7d' :: '\n' :: [])) := by
    show ("\x7b\n" ++ renderMembers ps ++ "\x7d\n").data = _
    rw [String.data_append, String.data_append]
    have h1 : ("\x7b\n").data = ['\x7b', '\n'] := rfl
    have h2 : ("\x7d\n").data = ['\x7d', '\n'] := rfl
    rw [h1, h2]
    simp
  rw [hd]
  have s0 : step ⟨[], .valueStart⟩ '\x7b' = some ⟨[.fobj [] none], .objStart⟩ := rfl
  have s1 : step ⟨[.fobj [] none], .objStart⟩ '\n' = some ⟨[.fobj [] none], .objStart⟩ := rfl
  rw [runP_cons_of_step s0, runP_cons_of_step s1,
    runP_members ps hps hne [] PMode.objStart (Or.inl rfl)]
  simp

/-! ### Discovery and parse-pipeline lemmas -/

/-- The fixed ignore-list of main.go, as a list. -/
def ignoreNames : List String :=
  ["0023-documentation-for-images.md",
   "0004-cloud-provider-template.md",
   "0001a-meta-kep-implementation.md",
   "0001-kubernetes-enhancement-proposal-process.md",
   "YYYYMMDD-kep-template.md",
   "README.md",
   "kep-faq.md"]

/-- Characterization: `ignore` accepts exactly the names that end in "md" and are not in the
fixed list. -/
theorem ignore_eq_false (name : String) :
    ignore name = false ↔ (strHasSuffix name "md" = true ∧ name ∉ ignoreNames) := by
  unfold ignore
  by_cases h : strHasSuffix name "md"
  · simp only [h, Bool.not_true, Bool.false_eq_true, if_false, ignoreNames]
    by_cases h2 : name == "0023-documentation-for-images.md"
        || name == "0004-cloud-provider-template.md"
        || name == "0001a-meta-kep-implementation.md"
        || name == "0001-kubernetes-enhancement-proposal-process.md"
        || name == "YYYYMMDD-kep-template.md"
        || name == "README.md"
        || name == "kep-faq.md"
    · simp only [h2, if_true]
      simp only [Bool.or_eq_true, beq_iff_eq] at h2
      simp only [List.mem_cons, List.not_mem_nil]
      tauto
    · simp only [h2, if_false]
      simp only [Bool.or_eq_true, beq_iff_eq] at h2
      push_neg at h2
      simp only [List.mem_cons, List.not_mem_nil]
      tauto
  · simp only [Bool.not_eq_true] at h
    simp [h]

/-- Characterization: `findMarkdownFiles` is the in-order filter of the walk entries. -/
theorem findMarkdownFiles_eq (entries : List WalkEntry) :
    findMarkdownFiles entries
      = (entries.filter (fun e => !e.isDir && !(ignore e.name))).map
          (fun e => e.path) := by
  have key : ∀ (es : List WalkEntry) (acc : List String),
      es.foldl
        (fun files e =>
          if e.isDir then files
          else if ignore e.name then files
          else files ++ [e.path]) acc
        = acc ++ (es.filter (fun e => !e.isDir && !(ignore e.name))).map
            (fun e => e.path) := by
    intro es
    induction es with
    | nil => simp
    | cons e es ih =>
      intro acc
      by_cases hd : e.isDir
      · simp [List.foldl_cons, hd, ih]
      · by_cases hi : ignore e.name
        · simp [List.foldl_cons, hd, hi, ih]
        · simp [List.foldl_cons, hd, hi, ih]
  exact key entries []

/-- Clean inputs parse to their records in file order. -/
theorem parseFiles_ok (files : List InputFile)
    (h : ∀ f ∈ files, f.kep.Error = none) :
    parseFiles files = .ok (files.map (fun f => f.kep)) := by
  induction files with
  | nil => rfl
  | cons f fs ih =>
    have hf : f.kep.Error = none := h f (by simp)
    simp only [parseFiles, hf]
    rw [ih (fun g hg => h g (by simp [hg]))]
    rfl

/-- The first file whose record carries an error aborts `parseFiles` with
the error message built from that file's name and cause; nothing after it
matters. -/
theorem parseFiles_first_error (pre : List InputFile) (bad : InputFile)
    (post : List InputFile) (e : String)
    (hpre : ∀ f ∈ pre, f.kep.Error = none) (he : bad.kep.Error = some e) :
    parseFiles (pre ++ bad :: post)
      = .error (bad.name ++ " has an error: " ++ goQuote e ++ "\n") := by
  induction pre with
  | nil => simp [parseFiles, he]
  | cons f fs ih =>
    have hf : f.kep.Error = none := hpre f (by simp)
    simp only [List.cons_append, parseFiles, hf, List.append_eq]
    rw [ih (fun g hg => hpre g (by simp [hg]))]

/-! ### Helper corollaries used by the claim theorems -/

/-- A marshalled string list parses back as the array of its strings. -/
theorem parseJson_marshal (l : List String) :
    parseJson (marshal l) = some (.jarr (l.map .jstr)) := by
  unfold parseJson
  rw [runP_marshal l []]
  rfl

/-- A JSON-encoded string parses back to itself, whatever it contains. -/
theorem parseJson_jsonQuote (s : String) :
    parseJson (jsonQuote s) = some (.jstr s) := by
  unfold parseJson
  have hq : (jsonQuote s).data = '"' :: (s.data.flatMap jsonEscapeChar ++ ['"']) := rfl
  have s0 : step ⟨[], .valueStart⟩ '"' = some ⟨[], .inStr false []⟩ := rfl
  rw [hq, runP_cons_of_step s0, runP_strBody]
  rfl

/-- A quoted verbatim string parses back to itself exactly when it is
escape-free. -/
theorem parseJson_rawString (v : String) (hv : safeStr v = true) :
    parseJson ("\"" ++ v ++ "\"") = some (.jstr v) := by
  unfold parseJson
  have hd : ("\"" ++ v ++ "\"").data = '"' :: (v.data ++ ['"']) := by
    rw [String.data_append, String.data_append]
    simp
  have s0 : step ⟨[], .valueStart⟩ '"' = some ⟨[], .inStr false []⟩ := rfl
  rw [hd, runP_cons_of_step s0, runP_rawBody v hv]
  rfl

/-- Single-record instance of the master round trip. -/
theorem parseJson_single (p : Proposal) (hp : SafeScalars p = true) :
    parseJson (printJSONOutput [p])
      = some (.jobj [(hashKey p, recordJVal p)]) := by
  have h := parseJson_printJSONOutput [p] (by simp)
    (by intro q hq; simp only [List.mem_singleton] at hq; subst hq; exact hp)
  simpa using h

/-- The identifier reads only `OwningSIG` and `Title`. -/
theorem hashKey_congr (p q : Proposal) (h1 : p.OwningSIG = q.OwningSIG)
    (h2 : p.Title = q.Title) : hashKey p = hashKey q := by
  unfold hashKey
  rw [h1, h2]

theorem hexDigitChar_mem (n : Nat) : hexDigitChar n ∈ hexDigits := by
  have h : n % 16 < hexDigits.length := by
    have h2 : n % 16 < 16 := Nat.mod_lt _ (by norm_num)
    simpa [hexDigits] using h2
  unfold hexDigitChar
  rw [List.getD_eq_getElem hexDigits '0' h]
  exact List.getElem_mem h

/-- Every character of an identifier is a lowercase hex digit. -/
theorem hashKey_lower_hex (p : Proposal) :
    ∀ c ∈ (hashKey p).data, c ∈ hexDigits := by
  intro c hc
  have hc2 : c ∈ hexEncode (md5Bytes (utf8Bytes
      ((p.OwningSIG ++ ":" ++ p.Title)).data)) := hc
  simp only [hexEncode, List.mem_flatMap] at hc2
  obtain ⟨b, _, hb⟩ := hc2
  simp only [List.mem_cons, List.not_mem_nil, or_false] at hb
  rcases hb with h | h <;> subst h <;> exact hexDigitChar_mem _

theorem hexEncode_length (bs : List Nat) :
    (hexEncode bs).length = 2 * bs.length := by
  induction bs with
  | nil => rfl
  | cons b bs ih =>
    simp only [hexEncode, List.flatMap_cons, List.length_append] at ih ⊢
    simp [ih]
    omega

/-- Identifiers are 32 characters long (16 digest bytes, two digits each). -/
theorem hashKey_length (p : Proposal) : (hashKey p).length = 32 := by
  show (String.mk (hexEncode (md5Bytes _))).length = 32
  rw [String.length_mk, hexEncode_length]
  have h : ∀ msg : List Nat, (md5Bytes msg).length = 16 := by
    intro msg
    simp [md5Bytes, wordLE4]
  rw [h]

/-- Restatement of `ignore` as a boolean combination of the suffix test and membership in
the fixed list. -/
theorem ignore_eq (name : String) :
    ignore name
      = !(strHasSuffix name "md" && !(decide (name ∈ ignoreNames))) := by
  cases h : ignore name with
  | false =>
    obtain ⟨hs, hm⟩ := (ignore_eq_false name).mp h
    simp [hs, hm]
  | true =>
    by_cases hs : strHasSuffix name "md" = true
    · by_cases hm : name ∈ ignoreNames
      · simp [hs, hm]
      · exact absurd ((ignore_eq_false name).mpr ⟨hs, hm⟩) (by simp [h])
    · simp only [Bool.not_eq_true] at hs
      simp [hs]

theorem str_assoc (a b c : String) : a ++ b ++ c = a ++ (b ++ c) := by
  apply String.ext
  simp [String.data_append, List.append_assoc]

set_option maxRecDepth 8000 in
/-- The member loop output is the members joined by `",\n"`, one comma
between consecutive members and none after the last. -/
theorem renderMembers_joinSep (ps : List Proposal) (hne : ps ≠ []) :
    renderMembers ps
      = joinSep ",\n" (ps.map (fun p => memberCore p ++ "\t\x7d")) ++ "\n" := by
  induction ps with
  | nil => exact absurd rfl hne
  | cons p rest ih =>
    cases rest with
    | nil =>
      show memberCore p ++ "\t\x7d\n" = memberCore p ++ "\t\x7d" ++ "\n"
      rw [str_assoc]
      rfl
    | cons q qs =>
      show memberCore p ++ "\t\x7d,\n" ++ renderMembers (q :: qs) = _
      rw [ih (by simp)]
      apply String.ext
      simp [joinSep, String.data_append, List.append_assoc, List.cons_append]

/-- Inversion for a successful `parseFiles` run. -/
theorem parseFiles_ok_inv (files : List InputFile) (ps : List Proposal)
    (h : parseFiles files = .ok ps) :
    ps = files.map (fun f => f.kep) ∧ ∀ f ∈ files, f.kep.Error = none := by
  induction files generalizing ps with
  | nil =>
    simp only [parseFiles] at h
    cases h
    simp
  | cons f fs ih =>
    simp only [parseFiles] at h
    cases he : f.kep.Error with
    | some e => rw [he] at h; cases h
    | none =>
      rw [he] at h
      cases hfs : parseFiles fs with
      | error msg => rw [hfs] at h; cases h
      | ok qs =>
        rw [hfs] at h
        cases h
        obtain ⟨h1, h2⟩ := ih qs hfs
        constructor
        · simp [h1]
        · intro g hg
          rcases List.mem_cons.mp hg with hg | hg
          · subst hg
            exact he
          · exact h2 g hg

/-! ### Concrete fixtures for witnesses and counterexamples -/

/-- A well-formed record with empty and non-empty sequence fields. -/
def propFoo : Proposal :=
  ⟨"Foo", "sig-x", [], ["alice", "bob"], ["carol"], "", "2020-01-01", "2020-02-02",
   "implementable", [], [], [], "Hello\nWorld \"quoted\"", none⟩

/-- Same OwningSIG and Title as `propFoo`, all other fields different. -/
def propBar : Proposal :=
  ⟨"Foo", "sig-x", ["sig-y"], [], [], "dan", "2021-01-01", "2021-02-02",
   "draft", [], [], [], "a different body", none⟩

/-- A second distinct well-formed record. -/
def propSecond : Proposal :=
  ⟨"Bar", "sig-y", [], [], [], "", "", "", "draft", [], [], [], "B", none⟩

/-- A record whose Title contains a double quote. -/
def propQuoteTitle : Proposal :=
  ⟨"a\"b", "sig-x", [], [], [], "", "", "", "ok", [], [], [], "", none⟩

/-- A record whose Status contains a double quote. -/
def propQuoteStatus : Proposal :=
  ⟨"T", "sig-s", [], [], [], "", "", "", "x\"y", [], [], [], "", none⟩

/-! ### Claim theorems -/

/-- C1: the serialized identifier key of a record is the lowercase hex
encoding of the MD5 checksum of OwningSIG ++ ":" ++ Title (first conjunct:
that is the key of the record's member in the parsed output); the
identifier depends only on OwningSIG and Title (second conjunct: records
agreeing on those two fields get equal keys whatever their other fields);
its characters are all lowercase hex digits and there are 32 of them. -/
theorem C1_identifier_key :
    (∀ p : Proposal, SafeScalars p = true →
        parseJson (printJSONOutput [p])
          = some (.jobj [(hashHex (p.OwningSIG ++ ":" ++ p.Title), recordJVal p)]))
    ∧ (∀ p q : Proposal, p.OwningSIG = q.OwningSIG → p.Title = q.Title →
        hashKey p = hashKey q)
    ∧ (∀ p : Proposal, ∀ c ∈ (hashKey p).data, c ∈ hexDigits)
    ∧ (∀ p : Proposal, (hashKey p).length = 32) := by
  refine ⟨?_, hashKey_congr, hashKey_lower_hex, hashKey_length⟩
  intro p hp
  exact parseJson_single p hp

set_option maxRecDepth 100000 in
/-- C1 witness at concrete records: `propFoo` and `propBar` differ in every
field except OwningSIG and Title and still share their identifier. -/
theorem C1_identifier_key_witness :
    parseJson (printJSONOutput [propFoo])
      = some (.jobj [(hashHex (propFoo.OwningSIG ++ ":" ++ propFoo.Title),
          recordJVal propFoo)])
    ∧ hashKey propFoo = hashKey propBar :=
  ⟨C1_identifier_key.1 propFoo (by decide),
   C1_identifier_key.2.1 propFoo propBar rfl rfl⟩

set_option maxRecDepth 100000 in
/-- C2 counterexample: a Title containing a double quote is written
verbatim, so the serialized title member value is not a valid JSON string
and the whole emitted document is not valid JSON either — the member value
cannot decode back to the original field. -/
theorem C2_counterexample :
    propQuoteTitle.Title = "a\"b"
    ∧ (parseJson ("\"" ++ propQuoteTitle.Title ++ "\"")).isSome = false
    ∧ (parseJson (printJSONOutput [propQuoteTitle])).isSome = false := by
  refine ⟨rfl, by decide, by decide⟩

/-- C2 amended: sequence fields and the markdown body are JSON
string-escaped and decode back to the original value for arbitrary
content; the six scalar string fields are interpolated verbatim between
quotes, so their member values are valid JSON strings decoding back to the
original exactly when the field contains no quote, backslash or control
character — under that condition every member of a record decodes back. -/
theorem C2_escaping_amended :
    (∀ s : String, parseJson (jsonQuote s) = some (.jstr s))
    ∧ (∀ v : String, safeStr v = true →
        parseJson ("\"" ++ v ++ "\"") = some (.jstr v))
    ∧ (∀ p : Proposal, SafeScalars p = true →
        parseJson (printJSONOutput [p]) = some (.jobj [(hashKey p, recordJVal p)])) :=
  ⟨parseJson_jsonQuote, parseJson_rawString, parseJson_single⟩

/-- C2 amended witness: an escaped string with a quote and a newline round
trips; a verbatim escape-free scalar round trips. -/
theorem C2_escaping_amended_witness :
    parseJson (jsonQuote "x\"y\nz") = some (.jstr "x\"y\nz")
    ∧ parseJson ("\"" ++ "abc" ++ "\"") = some (.jstr "abc") :=
  ⟨C2_escaping_amended.1 "x\"y\nz", C2_escaping_amended.2.1 "abc" (by decide)⟩

set_option maxRecDepth 100000 in
/-- C3 counterexample: a non-empty collection whose only record has a
double quote in its Status serializes to output that is not valid JSON. -/
theorem C3_counterexample :
    ([propQuoteStatus] ≠ ([] : List Proposal))
    ∧ (parseJson (printJSONOutput [propQuoteStatus])).isSome = false := by
  refine ⟨by simp, by decide⟩

/-- C3 amended: for every non-empty collection whose scalar string fields
contain no characters requiring JSON escaping, the serializer's output is
syntactically valid JSON — a single top-level object — and its body is the
members joined by a single comma-newline separator: exactly one comma
between consecutive top-level members and none after the last. -/
theorem C3_valid_json_amended :
    ∀ ps : List Proposal, ps ≠ [] → (∀ p ∈ ps, SafeScalars p = true) →
      (parseJson (printJSONOutput ps)).isSome = true
      ∧ printJSONOutput ps
          = "\x7b\n" ++ joinSep ",\n" (ps.map (fun p => memberCore p ++ "\t\x7d"))
            ++ "\n\x7d\n" := by
  intro ps hne hps
  constructor
  · rw [parseJson_printJSONOutput ps hne hps]
    rfl
  · show "\x7b\n" ++ renderMembers ps ++ "\x7d\n" = _
    rw [renderMembers_joinSep ps hne]
    apply String.ext
    simp [String.data_append, List.append_assoc]

set_option maxRecDepth 100000 in
/-- C3 amended witness: the two-record collection of `propFoo` and
`propSecond` produces valid JSON. -/
theorem C3_valid_json_amended_witness :
    (parseJson (printJSONOutput [propFoo, propSecond])).isSome = true :=
  (C3_valid_json_amended [propFoo, propSecond] (by simp) (by decide)).1

/-- C4: a successful run serializes the nth parsed document as the nth
member of the emitted object: `parseFiles` returns the records in file
order (no sorting, first conjunct), the parsed output object has one member
per file in that same order (second conjunct), and for every n the nth
member is built from the nth file's record (third conjunct). -/
theorem C4_member_order :
    ∀ (files : List InputFile) (ps : List Proposal),
      parseFiles files = .ok ps →
      ps = files.map (fun f => f.kep)
      ∧ (ps ≠ [] → (∀ p ∈ ps, SafeScalars p = true) →
          parseJson (printJSONOutput ps)
            = some (.jobj (files.map (fun f => (hashKey f.kep, recordJVal f.kep)))))
      ∧ (∀ i : Nat,
          (files.map (fun f => (hashKey f.kep, recordJVal f.kep)))[i]?
            = (files[i]?).map (fun f => (hashKey f.kep, recordJVal f.kep))) := by
  intro files ps h
  obtain ⟨h1, _⟩ := parseFiles_ok_inv files ps h
  refine ⟨h1, ?_, ?_⟩
  · intro hne hps
    subst h1
    rw [parseJson_printJSONOutput _ hne hps, List.map_map]
    rfl
  · intro i
    simp [List.getElem?_map]

/-- Input files used by the C4 witness. -/
def fileA : InputFile := ⟨"keps/a.md", propFoo⟩

/-- Input files used by the C4 witness. -/
def fileB : InputFile := ⟨"keps/b.md", propSecond⟩

set_option maxRecDepth 400000 in
/-- C4 witness: two concrete files parse in order and serialize in that
order. -/
theorem C4_member_order_witness :
    [propFoo, propSecond] = [fileA, fileB].map (fun f => f.kep)
    ∧ parseJson (printJSONOutput [propFoo, propSecond])
        = some (.jobj ([fileA, fileB].map
            (fun f => (hashKey f.kep, recordJVal f.kep)))) := by
  have h := C4_member_order [fileA, fileB] [propFoo, propSecond] (by rfl)
  exact ⟨h.1, h.2.1 (by simp) (by decide)⟩

/-- C5: the first record with a non-nil parse error aborts the run: the
outcome is exit code 1, no output file content, and a diagnostic naming
the failing file and the underlying cause; `parseFiles` returns that error
whatever comes after the failing file (second conjunct: the files after
the first failure never influence the result, so none of them is
examined). -/
theorem C5_abort_on_first_error :
    ∀ (entries : List WalkEntry) (parse : String → Proposal)
      (pre post : List String) (badName e : String),
      findMarkdownFiles entries = pre ++ badName :: post →
      (∀ n ∈ pre, (parse n).Error = none) →
      (parse badName).Error = some e →
      runKepify entries parse
        = ⟨1, none, some ("error parsing files: "
            ++ goQuote (badName ++ " has an error: " ++ goQuote e ++ "\n") ++ "\n")⟩
      ∧ (∀ post2 : List String,
          parseFiles ((pre ++ badName :: post2).map (fun n => ⟨n, parse n⟩))
            = .error (badName ++ " has an error: " ++ goQuote e ++ "\n")) := by
  intro entries parse pre post badName e hfiles hpre hbad
  have herr : ∀ post2 : List String,
      parseFiles ((pre ++ badName :: post2).map (fun n => (⟨n, parse n⟩ : InputFile)))
        = .error (badName ++ " has an error: " ++ goQuote e ++ "\n") := by
    intro post2
    rw [List.map_append, List.map_cons]
    exact parseFiles_first_error _ ⟨badName, parse badName⟩ _ e
      (by
        intro f hf
        obtain ⟨n, hn, rfl⟩ := List.mem_map.mp hf
        exact hpre n hn)
      hbad
  constructor
  · unfold runKepify
    rw [hfiles]
    have hni : (pre ++ badName :: post).isEmpty = false := by simp
    simp only [hni, Bool.false_eq_true, if_false, herr post]
  · exact herr

/-- Walk entries used by the C5 witness. -/
def entriesW : List WalkEntry :=
  [⟨"keps/a.md", "a.md", false⟩, ⟨"keps/bad.md", "bad.md", false⟩,
   ⟨"keps/c.md", "c.md", false⟩]

/-- Parser results used by the C5 witness: the middle file fails. -/
def parseW : String → Proposal := fun n =>
  if n == "keps/bad.md" then
    ⟨"", "", [], [], [], "", "", "", "", [], [], [], "", some "missing title"⟩
  else propFoo

/-- C5 witness: the run aborts on the middle file with its name and cause
in the diagnostic, writing no output. -/
theorem C5_abort_on_first_error_witness :
    runKepify entriesW parseW
      = ⟨1, none, some ("error parsing files: "
          ++ goQuote ("keps/bad.md" ++ " has an error: "
            ++ goQuote "missing title" ++ "\n") ++ "\n")⟩ :=
  (C5_abort_on_first_error entriesW parseW ["keps/a.md"] ["keps/c.md"]
    "keps/bad.md" "missing title" (by decide) (by decide) (by decide)).1

/-- C6: every sequence field is serialized by `marshal` as a JSON array of
its strings (first conjunct), the empty sequence as the two-character
array `[]` — not null and not an absent member (second conjunct) — and in
the parsed output each record's sequence members are arrays (third
conjunct, via `recordJVal`). -/
theorem C6_sequence_arrays :
    (∀ l : List String, parseJson (marshal l) = some (.jarr (l.map .jstr)))
    ∧ marshal [] = "[]"
    ∧ (∀ p : Proposal, SafeScalars p = true →
        parseJson (printJSONOutput [p]) = some (.jobj [(hashKey p, recordJVal p)])) :=
  ⟨parseJson_marshal, rfl, parseJson_single⟩

set_option maxRecDepth 100000 in
/-- C6 witness: a concrete list and the empty list round trip; `propFoo`
has empty sequence fields and they appear as empty arrays in the parsed
output. -/
theorem C6_sequence_arrays_witness :
    parseJson (marshal ["a", "b"]) = some (.jarr [.jstr "a", .jstr "b"])
    ∧ parseJson (marshal []) = some (.jarr [])
    ∧ parseJson (printJSONOutput [propFoo])
        = some (.jobj [(hashKey propFoo, recordJVal propFoo)]) :=
  ⟨C6_sequence_arrays.1 ["a", "b"], C6_sequence_arrays.1 [],
   C6_sequence_arrays.2.2 propFoo (by decide)⟩

/-- C7: two distinct records with identical OwningSIG and Title are both
kept: `parseFiles` appends both (second conjunct, no deduplication), and
both are serialized as separate members under the same identifier key
(first conjunct: the parsed object has two members, both keyed by the
first record's identifier). -/
theorem C7_duplicate_keys :
    (∀ r1 r2 : Proposal,
        r1.OwningSIG = r2.OwningSIG → r1.Title = r2.Title →
        SafeScalars r1 = true → SafeScalars r2 = true →
        parseJson (printJSONOutput [r1, r2])
          = some (.jobj [(hashKey r1, recordJVal r1), (hashKey r1, recordJVal r2)]))
    ∧ (∀ f1 f2 : InputFile, f1.kep.Error = none → f2.kep.Error = none →
        parseFiles [f1, f2] = .ok [f1.kep, f2.kep]) := by
  constructor
  · intro r1 r2 h1 h2 hs1 hs2
    have h := parseJson_printJSONOutput [r1, r2] (by simp)
      (by
        intro p hp
        rcases List.mem_cons.mp hp with hp | hp
        · subst hp; exact hs1
        · simp only [List.mem_singleton] at hp
          subst hp; exact hs2)
    simp only [List.map_cons, List.map_nil] at h
    rw [hashKey_congr r2 r1 h1.symm h2.symm] at h
    exact h
  · intro f1 f2 h1 h2
    have h := parseFiles_ok [f1, f2]
      (by
        intro f hf
        rcases List.mem_cons.mp hf with hf | hf
        · subst hf; exact h1
        · simp only [List.mem_singleton] at hf
          subst hf; exact h2)
    simpa using h

set_option maxRecDepth 400000 in
/-- C7 witness: `propFoo` and `propBar` share OwningSIG and Title but
differ everywhere else; both members appear, under one key. -/
theorem C7_duplicate_keys_witness :
    parseJson (printJSONOutput [propFoo, propBar])
      = some (.jobj [(hashKey propFoo, recordJVal propFoo),
          (hashKey propFoo, recordJVal propBar)])
    ∧ parseFiles [⟨"keps/a.md", propFoo⟩, ⟨"keps/b.md", propBar⟩]
        = .ok [propFoo, propBar] :=
  ⟨C7_duplicate_keys.1 propFoo propBar rfl rfl (by decide) (by decide),
   C7_duplicate_keys.2 ⟨"keps/a.md", propFoo⟩ ⟨"keps/b.md", propBar⟩ rfl rfl⟩

/-- C8: when every walk entry is a directory or has an ignored name, the
discovery yields nothing, the run reports "did not find any KEPs" and
exits 1 with no output, and the outcome does not depend on the parser at
all — no document is parsed. -/
theorem C8_empty_collection :
    ∀ (entries : List WalkEntry) (parse : String → Proposal),
      (∀ e ∈ entries, e.isDir = true ∨ ignore e.name = true) →
      findMarkdownFiles entries = []
      ∧ runKepify entries parse = ⟨1, none, some "did not find any KEPs\n"⟩
      ∧ (∀ parse2 : String → Proposal,
          runKepify entries parse = runKepify entries parse2) := by
  intro entries parse h
  have hempty : findMarkdownFiles entries = [] := by
    rw [findMarkdownFiles_eq]
    have hfil : entries.filter (fun e => !e.isDir && !(ignore e.name)) = [] := by
      rw [List.filter_eq_nil_iff]
      intro e he
      rcases h e he with hd | hi
      · simp [hd]
      · simp [hi]
    rw [hfil]
    rfl
  have hrun : ∀ p2 : String → Proposal,
      runKepify entries p2 = ⟨1, none, some "did not find any KEPs\n"⟩ := by
    intro p2
    unfold runKepify
    rw [hempty]
    rfl
  exact ⟨hempty, hrun parse, fun p2 => by rw [hrun parse, hrun p2]⟩

/-- Walk entries used by the C8 witness: a directory, an ignored name and
a wrong extension. -/
def entriesE : List WalkEntry :=
  [⟨"keps", "keps", true⟩, ⟨"keps/README.md", "README.md", false⟩,
   ⟨"keps/notes.txt", "notes.txt", false⟩]

/-- C8 witness: the concrete all-ignored tree aborts without output. -/
theorem C8_empty_collection_witness :
    runKepify entriesE (fun _ => propFoo)
      = ⟨1, none, some "did not find any KEPs\n"⟩ :=
  (C8_empty_collection entriesE (fun _ => propFoo) (by decide)).2.1

/-- C9: discovery yields exactly the non-directory paths whose name ends
in the document suffix "md" and whose base name is not in the fixed
seven-name ignore-list, in walk order. -/
theorem C9_discovery_filter :
    ∀ entries : List WalkEntry,
      findMarkdownFiles entries
        = (entries.filter (fun e =>
            !e.isDir && strHasSuffix e.name "md"
              && !(decide (e.name ∈ ignoreNames)))).map
            (fun e => e.path) := by
  intro entries
  rw [findMarkdownFiles_eq]
  congr 1
  apply List.filter_congr
  intro e _
  rw [ignore_eq e.name]
  simp [Bool.and_assoc]

/-- C10: the document-extension check is a bare two-character "md" suffix
test with no dot required: every name ending in "md" that is not in the
ignore-list is accepted, in particular "roadmd" and "appendmd", and such a
file is included in the collection. -/
theorem C10_bare_md_suffix :
    (∀ name : String, strHasSuffix name "md" = true → name ∉ ignoreNames →
        ignore name = false)
    ∧ ignore "roadmd" = false
    ∧ ignore "appendmd" = false
    ∧ findMarkdownFiles [⟨"keps/roadmd", "roadmd", false⟩] = ["keps/roadmd"] := by
  refine ⟨?_, by decide, by decide, by decide⟩
  intro name hs hm
  exact (ignore_eq_false name).mpr ⟨hs, hm⟩

/-- C10 witness: a fresh dotless name ending in "md" is accepted. -/
theorem C10_bare_md_suffix_witness :
    ignore "custommd" = false :=
  C10_bare_md_suffix.1 "custommd" (by decide) (by decide)
